import Mathlib

/-!
Verification of the documentation-synchronization core of DocSherpa.

This file shallowly embeds the Rust sources `src/parser.rs`, `src/docstring.rs`
and `src/lang/python.rs`:

* `CodeItem`, `ParsedCode`, `DocstringIssue`, `UpdatedDocstring` mirror the
  records of `parser.rs` and `docstring.rs`.
* Python source text is modelled as a Lean `String` (a sequence of `Char`s);
  Rust byte lengths (`str::len`) are modelled by `byteLen`, which sums the
  UTF-8 sizes of the characters.
* The third-party grammar (`rustpython_parser::parser::parse_program`) is not
  part of this repository; the abstract syntax tree it returns is modelled by
  the `PyStmt` type, and `parsePy content statements` embeds the body of
  `PythonParser::parse` after a successful grammar parse.  Concrete claims
  supply the statement list that `rustpython-parser` produces for the given
  content string (rows are 1-based and file-relative, as in `rustpython`).
* `update_content` embeds `PythonParser::update_content`.  Because the Rust
  code indexes `parsed_code.items[update.item_index]` without a bounds check
  (both in the sort comparator and in the loop body), an out-of-range index
  makes the Rust program panic; this outcome is modelled by `UResult.oob`.
-/

/-! ## Character-sequence helpers (Rust `str` primitives) -/

/-- Rust `str::len`: the length of the string in bytes (UTF-8). -/
def byteLen (s : List Char) : Nat :=
  (s.map Char.utf8Size).sum

/-- One step of Rust `str::lines`: a line that was terminated by `"\r\n"`
has its trailing `'\r'` removed (only a single trailing `'\r'`). -/
def stripCR (l : List Char) : List Char :=
  if l.getLast? = some '\r' then l.dropLast else l

/-- Split a character sequence at every `'\n'` (Rust `str::split('\n')`):
the result is always non-empty, and splitting the empty string gives `[[]]`. -/
def splitNL : List Char → List (List Char)
  | [] => [[]]
  | c :: cs =>
    match splitNL cs with
    | [] => [[]]
    | p :: ps => if c = '\n' then [] :: p :: ps else (c :: p) :: ps

/-- Join character sequences with `'\n'` (Rust `[&str]::join("\n")`). -/
def joinNL : List (List Char) → List Char
  | [] => []
  | [p] => p
  | p :: q :: ps => p ++ '\n' :: joinNL (q :: ps)

/-- Rust `str::lines`: split at `'\n'`, strip a `'\r'` from every line that
was actually terminated by a newline, and drop the final empty piece that a
trailing newline would otherwise produce (the final line ending is optional).
The last piece keeps a trailing `'\r'`, exactly as `str::lines` does. -/
def rustLinesData (s : List Char) : List (List Char) :=
  let ps := splitNL s
  ps.dropLast.map stripCR ++ (if ps.getLastD [] = [] then [] else [ps.getLastD []])

/-- `String`-level wrapper for `rustLinesData`. -/
def rustLines (s : String) : List String :=
  (rustLinesData s.data).map String.mk

/-- Join a list of lines with `'\n'`, as a `String`. -/
def joinLines (ls : List String) : String :=
  ⟨joinNL (ls.map String.data)⟩

/-- Rust `str::split_at` on a byte index (panic-free model; all uses in the
embedded code land on character boundaries for the inputs considered). -/
def splitAtByte (s : List Char) (n : Nat) : List Char × List Char :=
  match s with
  | [] => ([], [])
  | c :: cs =>
    if n = 0 then ([], c :: cs)
    else
      let r := splitAtByte cs (n - c.utf8Size)
      (c :: r.1, r.2)

/-- Rust `str::trim` (Unicode whitespace is modelled by `Char.isWhitespace`;
all lines inspected by the claims are ASCII). -/
def charTrim (l : List Char) : List Char :=
  ((l.dropWhile Char.isWhitespace).reverse.dropWhile Char.isWhitespace).reverse

/-- Substring test on character sequences: does `needle` occur contiguously
inside the second argument? -/
def infixB (needle : List Char) : List Char → Bool
  | [] => needle.isEmpty
  | c :: cs => needle.isPrefixOf (c :: cs) || infixB needle cs

/-- Rust `str::contains(&str)`: substring containment (an empty needle is
always contained). -/
def containsStr (haystack needle : String) : Bool :=
  infixB needle.data haystack.data

/-- Rust `str::to_lowercase`, modelled characterwise by `Char.toLower`
(the strings the analyzer lowercases in the claims are ASCII). -/
def lowerStr (s : String) : String :=
  ⟨s.data.map Char.toLower⟩

/-- The single-quote character `'` (written via its code point). -/
def squote : Char := Char.ofNat 39

/-- The `'''` Python docstring delimiter. -/
def tripleSQ : List Char := [squote, squote, squote]

/-- The `"""` Python docstring delimiter. -/
def tripleDQ : List Char := "\"\"\"".data

/-! ## Item model (`src/parser.rs`, `src/docstring.rs`) -/

/-- `parser.rs::CodeItem`: a code item that needs documentation. -/
structure CodeItem where
  item_type : String
  name : String
  line_number : Nat
  code : String
  existing_docstring : Option String
  parent : Option String
  parameters : List String
  returns : Option String
  indentation : String
  deriving DecidableEq

instance : Inhabited CodeItem :=
  ⟨{ item_type := "", name := "", line_number := 0, code := "",
     existing_docstring := none, parent := none, parameters := [],
     returns := none, indentation := "" }⟩

/-- `parser.rs::ParsedCode`: the parsed code file. -/
structure ParsedCode where
  items : List CodeItem
  original_content : String
  deriving DecidableEq

/-- `docstring.rs::DocstringIssue`: an issue with documentation. -/
structure DocstringIssue where
  item_type : String
  name : String
  line_number : Nat
  issue_type : String
  item_index : Nat
  deriving DecidableEq

/-- `docstring.rs::UpdatedDocstring`: an updated docstring. -/
structure UpdatedDocstring where
  item_index : Nat
  new_docstring : String
  indentation : String
  deriving DecidableEq

/-! ## Python abstract syntax (model of the `rustpython_parser::ast` subset
used by `PythonParser`) -/

/-- One argument (`ast::ArgData`): only the name is inspected. -/
structure PyArg where
  arg : String
  deriving DecidableEq

/-- `ast::Arguments`: the argument lists inspected by `extract_parameters`. -/
structure PyArguments where
  posonlyargs : List PyArg := []
  args : List PyArg := []
  kwonlyargs : List PyArg := []
  vararg : Option PyArg := none
  kwarg : Option PyArg := none
  deriving DecidableEq

/-- The statements `PythonParser::parse` distinguishes, with their (1-based,
file-relative) start row and optional end row.  `exprConstantStr` stands for
`StmtKind::Expr` whose value is `ExprKind::Constant(Constant::Str)`; every
other statement kind is `otherStmt`.  A function's return annotation is
modelled by its formatted text (the Rust code stores `format!("{:?}", expr)`),
so only its presence is meaningful. -/
inductive PyStmt where
  | functionDef (row : Nat) (endRow : Option Nat) (name : String)
      (args : PyArguments) (body : List PyStmt) (returns : Option String)
  | classDef (row : Nat) (endRow : Option Nat) (name : String)
      (body : List PyStmt)
  | exprConstantStr (row : Nat) (endRow : Option Nat) (s : String)
  | otherStmt (row : Nat) (endRow : Option Nat)

/-! ## `PythonParser` helper methods (`src/lang/python.rs`) -/

/-- `PythonParser::extract_docstring`: the docstring of a body is the string
constant that is its first statement, if any. -/
def extract_docstring (body : List PyStmt) : Option String :=
  match body.head? with
  | some (PyStmt.exprConstantStr _ _ s) => some s
  | _ => none

/-- `PythonParser::extract_parameters`, loop for loop:
`self` from the positional-only arguments first (at most once), then the
positional arguments other than `self`, then the not-yet-seen positional-only
arguments, then keyword-only arguments as `name=`, then `*vararg` and
`**kwarg`. -/
def extract_parameters (args : PyArguments) : List String :=
  let params0 : List String :=
    if args.posonlyargs.any (fun a => a.arg == "self") then ["self"] else []
  let params1 :=
    params0 ++ (args.args.filter (fun a => a.arg != "self")).map PyArg.arg
  let params2 :=
    args.posonlyargs.foldl
      (fun acc a =>
        if a.arg != "self" && !(acc.contains a.arg) then acc ++ [a.arg]
        else acc)
      params1
  let params3 := params2 ++ args.kwonlyargs.map (fun a => a.arg ++ "=")
  let params4 := params3 ++ (args.vararg.map (fun a => "*" ++ a.arg)).toList
  params4 ++ (args.kwarg.map (fun a => "**" ++ a.arg)).toList

/-- `PythonParser::extract_return_type`: the Rust code formats the annotation
expression; the model already carries that text, so this is the identity on
the option. -/
def extract_return_type (returns : Option String) : Option String :=
  returns.map (fun s => s)

/-- `PythonParser::extract_code_block`: lines `start_line ..= end_line` of the
content, joined with `'\n'`. -/
def extract_code_block (content : String) (start_line end_line : Nat) : String :=
  joinLines (((rustLines content).drop (start_line - 1)).take (end_line - start_line + 1))

/-- `PythonParser::extract_indentation`: the leading whitespace of line
`line_number`, or `""` when the line does not exist. -/
def extract_indentation (content : String) (line_number : Nat) : String :=
  match (rustLines content).get? (line_number - 1) with
  | some line => ⟨line.data.takeWhile Char.isWhitespace⟩
  | none => ""

/-- The `method` item `PythonParser::parse` emits for one statement of the
body of class `name` (`none` when the statement is not a function
definition). -/
def methodItem (content : String) (name : String) (class_stmt : PyStmt) :
    Option CodeItem :=
  match class_stmt with
  | PyStmt.functionDef mrow mend mname margs mbody mret =>
    some { item_type := "method", name := mname, line_number := mrow,
           code := extract_code_block content mrow (mend.getD mrow),
           existing_docstring := extract_docstring mbody,
           parent := some name,
           parameters := extract_parameters margs,
           returns := extract_return_type mret,
           indentation := extract_indentation content mrow }
  | _ => none

/-- The items contributed by one module-level statement in
`PythonParser::parse`: a function definition yields one `function` item; a
class definition yields a `class` item followed by one `method` item per
function definition in its body (with `parent` set to the class name); other
statements yield nothing. -/
def itemsOfStmt (content : String) (stmt : PyStmt) : List CodeItem :=
  match stmt with
  | PyStmt.functionDef row endRow name args body returns =>
    let lineno := row
    let end_lineno := endRow.getD lineno
    [{ item_type := "function", name := name, line_number := lineno,
       code := extract_code_block content lineno end_lineno,
       existing_docstring := extract_docstring body,
       parent := none,
       parameters := extract_parameters args,
       returns := extract_return_type returns,
       indentation := extract_indentation content lineno }]
  | PyStmt.classDef row endRow name body =>
    let class_lineno := row
    let class_end_lineno := endRow.getD class_lineno
    let classItem : CodeItem :=
      { item_type := "class", name := name, line_number := class_lineno,
        code := extract_code_block content class_lineno class_end_lineno,
        existing_docstring := extract_docstring body,
        parent := none,
        parameters := [],
        returns := none,
        indentation := extract_indentation content class_lineno }
    classItem :: body.filterMap (methodItem content name)
  | _ => []

/-- `PythonParser::parse` after a successful grammar parse: walk the
module-level statements in order, collecting their items. -/
def parsePy (content : String) (statements : List PyStmt) : ParsedCode :=
  { items := (statements.map (itemsOfStmt content)).flatten,
    original_content := content }

/-! ## Documentation issue analyzer (`src/docstring.rs`) -/

/-- `docstring.rs`: `param.trim_matches(|c| c == '*' || c == '=')`. -/
def cleanParam (param : String) : String :=
  ⟨((param.data.dropWhile fun c => c == '*' || c == '=').reverse.dropWhile
      fun c => c == '*' || c == '=').reverse⟩

/-- `docstring.rs::is_likely_outdated`: a docstring is likely outdated when a
non-`self` parameter (with `*`/`=` markers trimmed) is not contained in it,
or the item has a return annotation and the lowercased docstring does not
contain `"return"`, or the trimmed docstring is shorter than 10 bytes. -/
def is_likely_outdated (item : CodeItem) (docstring : String) : Bool :=
  (item.parameters.any fun param =>
    param != "self" && !(containsStr docstring (cleanParam param)))
  || (item.returns.isSome && !(containsStr (lowerStr docstring) "return"))
  || decide (byteLen (charTrim docstring.data) < 10)

/-- The issue `docstring.rs::analyze` records for the item at `index`:
`missing` when there is no docstring, `outdated` when the docstring is likely
outdated, nothing otherwise. -/
def issueFor (index : Nat) (item : CodeItem) : Option DocstringIssue :=
  match item.existing_docstring with
  | none =>
    some { item_type := item.item_type, name := item.name,
           line_number := item.line_number, issue_type := "missing",
           item_index := index }
  | some docstring =>
    if is_likely_outdated item docstring then
      some { item_type := item.item_type, name := item.name,
             line_number := item.line_number, issue_type := "outdated",
             item_index := index }
    else none

/-- `docstring.rs::analyze` (the Rust function always returns `Ok`; the model
returns the issue list directly). -/
def analyze (parsed_code : ParsedCode) : List DocstringIssue :=
  parsed_code.items.enum.filterMap (fun p => issueFor p.1 p.2)

/-! ## Content rewriter (`PythonParser::update_content`) -/

/-- `needle` is a prefix of `l` (Rust `str::starts_with`). -/
def startsWithL (needle l : List Char) : Bool :=
  needle.isPrefixOf l

/-- `needle` is a suffix of `l` (Rust `str::ends_with`). -/
def endsWithL (needle l : List Char) : Bool :=
  needle.reverse.isPrefixOf l.reverse

/-- `update_content`, existing-docstring test: the line after the definition
line, trimmed, starts with `"""` or `'''`. -/
def hasDocAt (lines : List (List Char)) (line_index : Nat) : Bool :=
  if line_index + 1 < lines.length then
    let next := charTrim (lines.getD (line_index + 1) [])
    startsWithL tripleDQ next || startsWithL tripleSQ next
  else false

/-- The break condition of the docstring-end scan in `update_content`:
at `line_index + 1` a line that both starts and ends (trimmed) with `"""`
closes a single-line docstring; past `line_index + 1` any line whose trimmed
text ends with `"""` or `'''` closes a multi-line docstring. -/
def docEndCond (lines : List (List Char)) (line_index i : Nat) : Bool :=
  let t := charTrim (lines.getD i [])
  (i == line_index + 1 && endsWithL tripleDQ t && startsWithL tripleDQ t)
  || (decide (line_index + 1 < i) && (endsWithL tripleDQ t || endsWithL tripleSQ t))

/-- The docstring-end scan of `update_content`: the first line index in
`line_index + 1 ..< lines.length` satisfying `docEndCond`; the initial value
`line_index` when no line satisfies it. -/
def docEndLine (lines : List (List Char)) (line_index : Nat) : Nat :=
  match (List.range' (line_index + 1) (lines.length - (line_index + 1))).find?
      (docEndCond lines line_index) with
  | some i => i
  | none => line_index

/-- The indented replacement text of `update_content`: every line of the new
docstring is prefixed with the item's indentation plus four spaces, and the
lines are rejoined with `'\n'`. -/
def indentedDocstring (indentation : List Char) (new_docstring : String) : List Char :=
  joinNL ((rustLinesData new_docstring.data).map
    (fun line => indentation ++ "    ".data ++ line))

/-- One iteration of the update loop of `PythonParser::update_content`,
acting on the current content with the item resolved for the update.
Mirrors the Rust code line by line: bounds check on the resolved line
number, existing-docstring detection, then either replacement of the
detected span or insertion after the definition line at a byte offset. -/
def applyOne (content : List Char) (item : CodeItem) (update : UpdatedDocstring) :
    Except String (List Char) :=
  let lines := rustLinesData content
  let line_index := item.line_number - 1
  if lines.length ≤ line_index then
    Except.error ("Line number " ++ toString item.line_number ++ " is out of bounds")
  else
    let def_line := lines.getD line_index []
    let indentation := item.indentation.data
    let indented_docstring := indentedDocstring indentation update.new_docstring
    if hasDocAt lines line_index then
      let docstring_end_line := docEndLine lines line_index
      let start_line := joinNL (lines.take (line_index + 1))
      let end_line :=
        if docstring_end_line + 1 < lines.length then
          joinNL (lines.drop (docstring_end_line + 1))
        else []
      Except.ok (start_line ++ '\n' :: (indented_docstring ++ '\n' :: end_line))
    else
      let split_index :=
        if 0 < line_index then
          byteLen (joinNL (lines.take line_index)) + byteLen def_line + 1
        else byteLen def_line
      let parts := splitAtByte content split_index
      Except.ok (parts.1 ++ '\n' :: (indented_docstring ++ parts.2))

/-- The sort key of the descending sort in `update_content`: the resolved
line number of the update's item (all indices are in range whenever the sort
is reached; see `update_content`). -/
def sortKey (items : List CodeItem) (update : UpdatedDocstring) : Nat :=
  (items.getD update.item_index default).line_number

/-- Stable insertion (descending by `sortKey`) used to model the stable
`sort_by` of `update_content`. -/
def insertDesc (items : List CodeItem) (u : UpdatedDocstring) :
    List UpdatedDocstring → List UpdatedDocstring
  | [] => [u]
  | v :: vs =>
    if sortKey items v ≤ sortKey items u then u :: v :: vs
    else v :: insertDesc items u vs

/-- The descending stable sort of `update_content` (`sort_by` with comparator
`b_line.cmp(&a_line)` is a stable sort by descending resolved line number;
a stable sort is uniquely determined by its key, so insertion sort is a
faithful model). -/
def sortUpdatesDesc (items : List CodeItem) :
    List UpdatedDocstring → List UpdatedDocstring
  | [] => []
  | u :: us => insertDesc items u (sortUpdatesDesc items us)

/-- The result of `PythonParser::update_content`.  `oob` models the Rust
panic caused by indexing `parsed_code.items` with an out-of-range
`item_index` (the Rust code performs this indexing without a bounds check,
in the sort comparator and in the loop body). -/
inductive UResult where
  | ok (content : String)
  | err (msg : String)
  | oob
  deriving DecidableEq

/-- The update loop of `update_content`: apply the sorted updates in order to
the evolving content, aborting on the first error. -/
def applyAll (items : List CodeItem) :
    List UpdatedDocstring → List Char → Except String (List Char)
  | [], content => Except.ok content
  | u :: rest, content =>
    match applyOne content (items.getD u.item_index default) u with
    | Except.error e => Except.error e
    | Except.ok c => applyAll items rest c

/-- `PythonParser::update_content`, given the item list that the internal
re-parse of `content` produces.  When some update's `item_index` is out of
range for that item list, the Rust code panics on the slice index (modelled
by `UResult.oob`); otherwise the updates are stably sorted by descending
resolved line number and applied in order. -/
def update_content (content : String) (items : List CodeItem)
    (updated_docstrings : List UpdatedDocstring) : UResult :=
  if updated_docstrings.any (fun u => items.length ≤ u.item_index) then
    UResult.oob
  else
    match applyAll items (sortUpdatesDesc items updated_docstrings) content.data with
    | Except.error e => UResult.err e
    | Except.ok c => UResult.ok ⟨c⟩

/-! ## Spec-side rendering used for comparison

The specification (section 4.2, convention (b)) associates with a definition
the contiguous block of comment lines immediately preceding it.  This
definition follows the spec's words; `PythonParser` has no such fallback, and
the comparison is the subject of claim C8. -/

/-- Convention (b) of the spec: the contiguous block of comment lines
(trimmed text starting with `#`) immediately preceding the 1-based
`defRow`, in file order. -/
def specPrecedingCommentBlock (content : String) (defRow : Nat) : List String :=
  (((rustLines content).take (defRow - 1)).reverse.takeWhile
    (fun l => startsWithL "#".data (charTrim l.data))).reverse

/-! ## Concrete programs used by the claims

Each content string is paired with the statement list that
`rustpython_parser::parser::parse_program` produces for it (rows are 1-based
and relative to the whole file). -/

/-- A two-line function without a docstring. -/
def c1 : String := "def f():\n    pass"

/-- The syntax tree of `c1`. -/
def stmts1 : List PyStmt :=
  [PyStmt.functionDef 1 (some 2) "f" {} [PyStmt.otherStmt 2 (some 2)] none]

/-- The parse of `c1`. -/
def pc1 : ParsedCode := parsePy c1 stmts1

/-- The items of the parse of `c1` (a single `function` item at line 1). -/
def items1 : List CodeItem := pc1.items

/-- An update whose `item_index` is out of range for `items1`. -/
def updOOB : UpdatedDocstring :=
  { item_index := 1, new_docstring := "Better doc.", indentation := "" }

/-- An in-range update inserting plain documentation text for `c1`. -/
def updC2 : UpdatedDocstring :=
  { item_index := 0, new_docstring := "Doc.", indentation := "" }

/-- An in-range update with prose documentation text for `c1`. -/
def updC3 : UpdatedDocstring :=
  { item_index := 0, new_docstring := "Do the thing.", indentation := "" }

/-- A function whose parameter is literally named `this`, with a docstring
that does not mention it. -/
def cT : String := "def f(this):\n    \"\"\"somewhat lengthy doc\"\"\""

/-- The syntax tree of `cT`. -/
def stmtsT : List PyStmt :=
  [PyStmt.functionDef 1 (some 2) "f" { args := [{ arg := "this" }] }
    [PyStmt.exprConstantStr 2 (some 2) "somewhat lengthy doc"] none]

/-- The parse of `cT`. -/
def pcT : ParsedCode := parsePy cT stmtsT

/-- Two functions in a file with Windows (CRLF) line endings. -/
def c6 : String := "def g():\r\n    pass\r\ndef f():\r\n    pass"

/-- The syntax tree of `c6` (`rustpython` handles CRLF line endings; `g`
starts at row 1 and `f` at row 3). -/
def stmts6 : List PyStmt :=
  [PyStmt.functionDef 1 (some 2) "g" {} [PyStmt.otherStmt 2 (some 2)] none,
   PyStmt.functionDef 3 (some 4) "f" {} [PyStmt.otherStmt 4 (some 4)] none]

/-- The items of the parse of `c6`. -/
def items6 : List CodeItem := (parsePy c6 stmts6).items

/-- The update of claim C6, targeting `f` (line 3) of `c6`. -/
def updC6 : UpdatedDocstring :=
  { item_index := 1, new_docstring := "Doc.", indentation := "" }

/-- What `update_content` actually returns on `c6`/`updC6`: the insertion
offset ignores the `'\r'` bytes, so the definition line of `f` is split. -/
def out6 : String := "def g():\r\n    pass\r\ndef f(\n    Doc.):\r\n    pass"

/-- Two functions at lines 1 and 3 (LF line endings). -/
def c7 : String := "def g():\n    pass\ndef f():\n    pass"

/-- The syntax tree of `c7`. -/
def stmts7 : List PyStmt :=
  [PyStmt.functionDef 1 (some 2) "g" {} [PyStmt.otherStmt 2 (some 2)] none,
   PyStmt.functionDef 3 (some 4) "f" {} [PyStmt.otherStmt 4 (some 4)] none]

/-- The items of the parse of `c7`. -/
def items7 : List CodeItem := (parsePy c7 stmts7).items

/-- An update targeting `g` (line 1) of `c7`. -/
def u7a : UpdatedDocstring :=
  { item_index := 0, new_docstring := "Doc g.", indentation := "" }

/-- An update targeting `f` (line 3) of `c7`. -/
def u7b : UpdatedDocstring :=
  { item_index := 1, new_docstring := "Doc f.", indentation := "" }

/-- A function preceded by a contiguous comment line, with no inline
docstring. -/
def c8 : String := "# increments x\ndef f(x):\n    return x + 1"

/-- The syntax tree of `c8` (comments do not appear in the tree; the
function starts at row 2). -/
def stmts8 : List PyStmt :=
  [PyStmt.functionDef 2 (some 3) "f" { args := [{ arg := "x" }] }
    [PyStmt.otherStmt 3 (some 3)] none]

/-- A class with one method, followed by a top-level function. -/
def cW : String :=
  "class Foo:\n    def m(self):\n        pass\ndef top():\n    pass"

/-- The syntax tree of `cW`. -/
def stmtsW : List PyStmt :=
  [PyStmt.classDef 1 (some 3) "Foo"
    [PyStmt.functionDef 2 (some 3) "m" { args := [{ arg := "self" }] }
      [PyStmt.otherStmt 3 (some 3)] none],
   PyStmt.functionDef 4 (some 5) "top" {} [PyStmt.otherStmt 5 (some 5)] none]

/-! # Theorems -/

/-! ## Analyzer lemmas -/

theorem issueFor_item_index {i : Nat} {it : CodeItem} {iss : DocstringIssue}
    (h : issueFor i it = some iss) : iss.item_index = i := by
  unfold issueFor at h
  split at h
  · injection h with h; subst h; rfl
  · split at h
    · injection h with h; subst h; rfl
    · exact absurd h (by simp)

theorem issues_lower_bound (items : List CodeItem) (k : Nat) :
    ∀ iss ∈ (List.enumFrom k items).filterMap (fun p => issueFor p.1 p.2),
      k ≤ iss.item_index := by
  induction items generalizing k with
  | nil => intro iss h; simp [List.enumFrom] at h
  | cons a as ih =>
    intro iss h
    simp only [List.enumFrom, List.filterMap_cons] at h
    cases hfa : issueFor k a with
    | none =>
      rw [hfa] at h
      exact Nat.le_of_succ_le (ih (k + 1) iss h)
    | some b =>
      rw [hfa] at h
      rcases List.mem_cons.mp h with rfl | h
      · exact Nat.le_of_eq (issueFor_item_index hfa).symm
      · exact Nat.le_of_succ_le (ih (k + 1) iss h)

theorem filter_issues_at (items : List CodeItem) (k i : Nat) (hk : k ≤ i)
    (hi : i - k < items.length) :
    ((List.enumFrom k items).filterMap (fun p => issueFor p.1 p.2)).filter
        (fun iss => iss.item_index == i)
      = (issueFor i (items.getD (i - k) default)).toList := by
  induction items generalizing k with
  | nil => simp at hi
  | cons a as ih =>
    have hlen : (a :: as).length = as.length + 1 := List.length_cons a as
    simp only [List.enumFrom, List.filterMap_cons]
    rcases Nat.eq_or_lt_of_le hk with rfl | hlt
    · rw [Nat.sub_self]
      have htail :
          ((List.enumFrom (k + 1) as).filterMap (fun p => issueFor p.1 p.2)).filter
              (fun iss => iss.item_index == k) = [] := by
        rw [List.filter_eq_nil_iff]
        intro iss hmem
        have hle := issues_lower_bound as (k + 1) iss hmem
        simp only [beq_iff_eq]
        omega
      rw [List.getD_cons_zero]
      cases hfa : issueFor k a with
      | none => simpa using htail
      | some b =>
        have hb : b.item_index = k := issueFor_item_index hfa
        simp [List.filter_cons, hb, htail]
    · have h1 : i - k = (i - (k + 1)) + 1 := by omega
      have hk1 : k + 1 ≤ i := hlt
      have hi1 : i - (k + 1) < as.length := by omega
      rw [h1, List.getD_cons_succ]
      cases hfa : issueFor k a with
      | none =>
        exact ih (k + 1) hk1 hi1
      | some b =>
        have hb : b.item_index = k := issueFor_item_index hfa
        have hbi : (b.item_index == i) = false := by
          simp only [beq_eq_false_iff_ne, ne_eq, hb]
          omega
        simp only [List.filter_cons, hbi]
        exact ih (k + 1) hk1 hi1

theorem analyze_filter_at (pc : ParsedCode) (i : Nat) (hi : i < pc.items.length) :
    (analyze pc).filter (fun iss => iss.item_index == i)
      = (issueFor i (pc.items.getD i default)).toList := by
  have h := filter_issues_at pc.items 0 i (Nat.zero_le i) (by simpa using hi)
  simpa [analyze, List.enum] using h

theorem mem_analyze_at (pc : ParsedCode) (i : Nat) (hi : i < pc.items.length)
    (iss : DocstringIssue) :
    (iss ∈ analyze pc ∧ iss.item_index = i) ↔
      issueFor i (pc.items.getD i default) = some iss := by
  constructor
  · rintro ⟨hmem, hidx⟩
    have : iss ∈ (analyze pc).filter (fun iss => iss.item_index == i) :=
      List.mem_filter.mpr ⟨hmem, by simp [hidx]⟩
    rw [analyze_filter_at pc i hi] at this
    cases hfa : issueFor i (pc.items.getD i default) with
    | none => rw [hfa] at this; simp at this
    | some b => rw [hfa] at this; simp at this; rw [this]
  · intro hfa
    have h1 : iss ∈ (analyze pc).filter (fun iss => iss.item_index == i) := by
      rw [analyze_filter_at pc i hi, hfa]; simp
    exact ⟨(List.mem_filter.mp h1).1, by simpa using (List.mem_filter.mp h1).2⟩

/-! ## Claims C1, C3, C6, C10 -/

/-- Claim C1 (code bug): an update whose `item_index` is out of range does
not produce an `UpdateError` result; the Rust code indexes
`parsed_code.items` without a bounds check, so it panics (modelled by
`UResult.oob`) instead of returning any error value. -/
theorem claim_C1_oob_index_panics :
    items1.length = 1 ∧
    update_content c1 items1 [updOOB] = UResult.oob ∧
    ∀ msg, update_content c1 items1 [updOOB] ≠ UResult.err msg := by
  refine ⟨by decide, by decide, ?_⟩
  intro msg h
  have h2 : update_content c1 items1 [updOOB] = UResult.oob := by decide
  rw [h2] at h
  exact UResult.noConfusion h

/-- Claim C3 (code bug): the rewriter inserts the documentation text
verbatim, with indentation but with no string delimiters of any kind, so
re-parsing the output cannot produce an item whose `existing_docstring`
equals the inserted text (the inserted line is not a string-literal
statement; for arbitrary prose the output is not even parseable Python). -/
theorem claim_C3_no_delimiters_inserted :
    update_content c1 items1 [updC3]
        = UResult.ok "def f():\n    Do the thing.\n    pass" ∧
    (∀ ch ∈ "def f():\n    Do the thing.\n    pass".data,
        ch ≠ '"' ∧ ch ≠ squote) ∧
    items1.map CodeItem.existing_docstring = [none] := by
  exact ⟨by decide, by decide, by decide⟩

/-- Claim C6 (code bug): on content with CRLF line endings the insertion
offset is computed from `'\r'`-stripped lines but applied to the raw bytes,
so the untargeted definition line `"def f():"` is split in two and does not
survive into the output, although the update only targeted an insertion
below that line. -/
theorem claim_C6_crlf_line_corruption :
    update_content c6 items6 [updC6] = UResult.ok out6 ∧
    "def f():" ∈ rustLines c6 ∧
    hasDocAt (rustLinesData c6.data) 2 = false ∧
    "def f():" ∉ rustLines out6 := by
  exact ⟨by decide, by decide, by decide, by decide⟩

/-- Claim C10: an empty updates list is a no-op; `update_content` returns
the content unchanged. -/
theorem claim_C10_empty_updates_identity (content : String) (items : List CodeItem) :
    update_content content items [] = UResult.ok content := by
  cases content
  rfl

/-! ## Claims C5 and C4 (analyzer policy) -/

/-- Claim C5: for every parsed item whose `existing_docstring` is absent,
`analyze` emits exactly one issue for that item and its issue type is
`missing`; and whenever a parse yields zero documentable items, the analysis
of that parse is empty. -/
theorem claim_C5_missing_policy :
    (∀ (pc : ParsedCode) (i : Nat), i < pc.items.length →
        (pc.items.getD i default).existing_docstring = none →
        (analyze pc).countP (fun iss => iss.item_index == i) = 1 ∧
          ∀ iss ∈ analyze pc, iss.item_index = i → iss.issue_type = "missing")
    ∧ ∀ (content : String) (statements : List PyStmt),
        (parsePy content statements).items = [] →
        analyze (parsePy content statements) = [] := by
  constructor
  · intro pc i hi hd
    have hfilt := analyze_filter_at pc i hi
    constructor
    · rw [List.countP_eq_length_filter, hfilt]
      unfold issueFor
      rw [hd]
      rfl
    · intro iss hmem hidx
      have h1 := (mem_analyze_at pc i hi iss).mp ⟨hmem, hidx⟩
      unfold issueFor at h1
      rw [hd] at h1
      injection h1 with h1
      subst h1
      rfl
  · intro content statements h
    unfold analyze
    rw [h]
    rfl

/-- Witness for claim C5 at the concrete parse `pc1` (one undocumented
function) and at a parse with zero documentable items. -/
theorem claim_C5_missing_policy_witness :
    (0 < pc1.items.length ∧
      (pc1.items.getD 0 default).existing_docstring = none ∧
      (analyze pc1).countP (fun iss => iss.item_index == 0) = 1 ∧
      ∀ iss ∈ analyze pc1, iss.item_index = 0 → iss.issue_type = "missing")
    ∧ (parsePy "x = 1" [PyStmt.otherStmt 1 (some 1)]).items = []
    ∧ analyze (parsePy "x = 1" [PyStmt.otherStmt 1 (some 1)]) = [] := by
  refine ⟨⟨by decide, by decide, ?_, ?_⟩, by decide, ?_⟩
  · exact (claim_C5_missing_policy.1 pc1 0 (by decide) (by decide)).1
  · exact (claim_C5_missing_policy.1 pc1 0 (by decide) (by decide)).2
  · exact claim_C5_missing_policy.2 "x = 1" [PyStmt.otherStmt 1 (some 1)] (by decide)

/-- Claim C4, counterexample: for the parsed function `def f(this): ...`
(whose docstring is long enough, has no return annotation, and does not
mention the parameter `this`), `analyze` emits an `outdated` issue, although
the claim's criterion — which excludes both `"self"` and `"this"` as
implicit receiver names — does not hold.  The code only excludes `"self"`. -/
theorem claim_C4_counterexample :
    (pcT.items.getD 0 default).existing_docstring = some "somewhat lengthy doc" ∧
    (∃ iss ∈ analyze pcT, iss.item_index = 0 ∧ iss.issue_type = "outdated") ∧
    ¬ ((∃ p ∈ (pcT.items.getD 0 default).parameters,
          p ≠ "self" ∧ p ≠ "this" ∧
          containsStr "somewhat lengthy doc" (cleanParam p) = false)
       ∨ ((pcT.items.getD 0 default).returns.isSome ∧
          containsStr (lowerStr "somewhat lengthy doc") "return" = false)
       ∨ byteLen (charTrim "somewhat lengthy doc".data) < 10) := by
  refine ⟨by decide, ?_, by decide⟩
  refine ⟨{ item_type := "function", name := "f", line_number := 1,
            issue_type := "outdated", item_index := 0 }, by decide, by decide, by decide⟩

/-- Claim C4 as amended: for an item with a docstring present, `analyze`
emits an `outdated` issue for it if and only if some parameter other than
the literal `"self"` (markers `*`/`=` trimmed) is not a substring of the
docstring, or the item has a return annotation and the lowercased docstring
does not contain `"return"`, or the trimmed docstring is shorter than 10
bytes.  (Only `"self"` is excluded; `"this"` is not.) -/
theorem claim_C4_amended_outdated_iff (pc : ParsedCode) (i : Nat) (d : String)
    (hi : i < pc.items.length)
    (hd : (pc.items.getD i default).existing_docstring = some d) :
    (∃ iss ∈ analyze pc, iss.item_index = i ∧ iss.issue_type = "outdated")
    ↔ ((∃ p ∈ (pc.items.getD i default).parameters,
          p ≠ "self" ∧ containsStr d (cleanParam p) = false)
       ∨ ((pc.items.getD i default).returns.isSome ∧
          containsStr (lowerStr d) "return" = false)
       ∨ byteLen (charTrim d.data) < 10) := by
  have hstep :
      (∃ iss ∈ analyze pc, iss.item_index = i ∧ iss.issue_type = "outdated")
        ↔ is_likely_outdated (pc.items.getD i default) d = true := by
    constructor
    · rintro ⟨iss, hmem, hidx, htype⟩
      have h1 := (mem_analyze_at pc i hi iss).mp ⟨hmem, hidx⟩
      simp only [issueFor, hd] at h1
      by_cases ho : is_likely_outdated (pc.items.getD i default) d = true
      · exact ho
      · rw [if_neg ho] at h1; exact absurd h1 (by simp)
    · intro ho
      refine ⟨{ item_type := (pc.items.getD i default).item_type,
                name := (pc.items.getD i default).name,
                line_number := (pc.items.getD i default).line_number,
                issue_type := "outdated", item_index := i }, ?_, rfl, rfl⟩
      have h1 : issueFor i (pc.items.getD i default) = some
          { item_type := (pc.items.getD i default).item_type,
            name := (pc.items.getD i default).name,
            line_number := (pc.items.getD i default).line_number,
            issue_type := "outdated", item_index := i } := by
        simp only [issueFor, hd]
        rw [if_pos ho]
      exact ((mem_analyze_at pc i hi _).mpr h1).1
  rw [hstep]
  unfold is_likely_outdated
  simp only [Bool.or_eq_true, List.any_eq_true, Bool.and_eq_true, bne_iff_ne,
    ne_eq, Bool.not_eq_true', decide_eq_true_eq]
  exact or_assoc

/-- Witness for the amended claim C4 at the parse of `def f(this): ...`:
the docstring omits the parameter `this`, so the criterion holds and an
`outdated` issue is emitted. -/
theorem claim_C4_amended_outdated_iff_witness :
    0 < pcT.items.length ∧
    (pcT.items.getD 0 default).existing_docstring = some "somewhat lengthy doc" ∧
    (∃ iss ∈ analyze pcT, iss.item_index = 0 ∧ iss.issue_type = "outdated") := by
  refine ⟨by decide, by decide, ?_⟩
  exact (claim_C4_amended_outdated_iff pcT 0 "somewhat lengthy doc" (by decide)
      (by decide)).mpr
    (Or.inl ⟨"this", by decide, by decide, by decide⟩)

/-! ## Claim C7 (order independence) -/

/-- Claim C7: two updates resolving to distinct line numbers produce the
same output whichever order they are passed in (the descending sort by
resolved line number neutralizes input order). -/
theorem claim_C7_order_independence (content : String) (items : List CodeItem)
    (u1 u2 : UpdatedDocstring)
    (_h1 : u1.item_index < items.length) (_h2 : u2.item_index < items.length)
    (hne : sortKey items u1 ≠ sortKey items u2) :
    update_content content items [u1, u2] = update_content content items [u2, u1] := by
  have hsort : sortUpdatesDesc items [u1, u2] = sortUpdatesDesc items [u2, u1] := by
    simp only [sortUpdatesDesc, insertDesc]
    rcases Nat.lt_or_ge (sortKey items u1) (sortKey items u2) with h | h
    · rw [if_neg (by omega), if_pos (by omega)]
    · have hlt : sortKey items u2 < sortKey items u1 := by
        rcases Nat.lt_or_ge (sortKey items u2) (sortKey items u1) with h' | h'
        · exact h'
        · exact absurd (Nat.le_antisymm h h') (fun he => hne he.symm)
      rw [if_pos (by omega), if_neg (by omega)]
  have hany : ([u1, u2].any (fun u => items.length ≤ u.item_index))
      = ([u2, u1].any (fun u => items.length ≤ u.item_index)) := by
    simp only [List.any_cons, List.any_nil, Bool.or_false]
    exact Bool.or_comm _ _
  unfold update_content
  rw [hany, hsort]

/-- Witness for claim C7: the two concrete updates of `c7` (resolved lines 1
and 3) commute. -/
theorem claim_C7_order_independence_witness :
    u7a.item_index < items7.length ∧ u7b.item_index < items7.length ∧
    sortKey items7 u7a ≠ sortKey items7 u7b ∧
    update_content c7 items7 [u7a, u7b] = update_content c7 items7 [u7b, u7a] :=
  ⟨by decide, by decide, by decide,
    claim_C7_order_independence c7 items7 u7a u7b (by decide) (by decide) (by decide)⟩

/-! ## Claims C8 and C9 (docstring resolution and parent assignment) -/

theorem methodItem_docstring_independent (content content' : String)
    (name : String) (cs : PyStmt) :
    (methodItem content name cs).map CodeItem.existing_docstring
      = (methodItem content' name cs).map CodeItem.existing_docstring := by
  cases cs <;> rfl

theorem itemsOfStmt_docstrings (content content' : String) (st : PyStmt) :
    (itemsOfStmt content st).map CodeItem.existing_docstring
      = (itemsOfStmt content' st).map CodeItem.existing_docstring := by
  cases st with
  | functionDef row endRow name args body returns => rfl
  | classDef row endRow name body =>
    simp only [itemsOfStmt, List.map_cons]
    congr 1
    rw [List.map_filterMap, List.map_filterMap]
    have hfun : (fun cs => (methodItem content name cs).map CodeItem.existing_docstring)
        = (fun cs => (methodItem content' name cs).map CodeItem.existing_docstring) :=
      funext (fun cs => methodItem_docstring_independent content content' name cs)
    rw [hfun]
  | exprConstantStr row endRow s => rfl
  | otherStmt row endRow => rfl

/-- Claim C8, counterexample: in `c8` the definition at row 2 is immediately
preceded by a contiguous comment block (the spec's convention (b)), yet the
emitted item's `existing_docstring` is absent — the claim's "absent only
when neither convention matches" is false on this input. -/
theorem claim_C8_counterexample :
    specPrecedingCommentBlock c8 2 = ["# increments x"] ∧
    ((parsePy c8 stmts8).items).map CodeItem.existing_docstring = [none] :=
  ⟨by decide, by decide⟩

/-- Claim C8 as amended: the grammar-driven extractor resolves documentation
only through the inline convention — `extract_docstring` returns `some s`
exactly when the first statement of the body is the string constant `s` —
and the docstrings of the emitted items never depend on the raw content
text, hence never on preceding comment lines. -/
theorem claim_C8_amended_inline_only :
    (∀ (body : List PyStmt) (s : String),
        extract_docstring body = some s ↔
          ∃ row endRow, body.head? = some (PyStmt.exprConstantStr row endRow s))
    ∧ ∀ (content content' : String) (statements : List PyStmt),
        ((parsePy content statements).items).map CodeItem.existing_docstring
          = ((parsePy content' statements).items).map CodeItem.existing_docstring := by
  constructor
  · intro body s
    unfold extract_docstring
    cases body with
    | nil => simp
    | cons h t =>
      cases h with
      | functionDef row endRow name args fbody returns => simp
      | classDef row endRow name cbody => simp
      | exprConstantStr row endRow str =>
        simp only [List.head?_cons, Option.some.injEq, PyStmt.exprConstantStr.injEq]
        constructor
        · intro hs; exact ⟨row, endRow, rfl, rfl, hs⟩
        · rintro ⟨r, e, _, _, hs⟩; exact hs
      | otherStmt row endRow => simp
  · intro content content' statements
    unfold parsePy
    induction statements with
    | nil => rfl
    | cons st rest ih =>
      simp only [List.map_cons, List.flatten_cons, List.map_append] at ih ⊢
      rw [itemsOfStmt_docstrings content content' st, ih]

/-- Claim C9: a method nested in a class is emitted as an item with `parent`
set to the class name and `line_number` equal to its file-relative row; a
top-level function is emitted with `parent = none`. -/
theorem claim_C9_parent_assignment (content : String) (statements : List PyStmt) :
    (∀ crow cend cname cbody,
        PyStmt.classDef crow cend cname cbody ∈ statements →
        ∀ mrow mend mname margs mbody mret,
          PyStmt.functionDef mrow mend mname margs mbody mret ∈ cbody →
          ∃ it ∈ (parsePy content statements).items,
            it.item_type = "method" ∧ it.name = mname ∧
            it.parent = some cname ∧ it.line_number = mrow)
    ∧ (∀ frow fend fname fargs fbody fret,
        PyStmt.functionDef frow fend fname fargs fbody fret ∈ statements →
        ∃ it ∈ (parsePy content statements).items,
          it.item_type = "function" ∧ it.name = fname ∧
          it.parent = none ∧ it.line_number = frow) := by
  constructor
  · intro crow cend cname cbody hcls mrow mend mname margs mbody mret hm
    refine ⟨{ item_type := "method", name := mname, line_number := mrow,
              code := extract_code_block content mrow (mend.getD mrow),
              existing_docstring := extract_docstring mbody,
              parent := some cname,
              parameters := extract_parameters margs,
              returns := extract_return_type mret,
              indentation := extract_indentation content mrow },
            ?_, rfl, rfl, rfl, rfl⟩
    unfold parsePy
    simp only [List.mem_flatten, List.mem_map]
    refine ⟨itemsOfStmt content (PyStmt.classDef crow cend cname cbody),
            ⟨PyStmt.classDef crow cend cname cbody, hcls, rfl⟩, ?_⟩
    unfold itemsOfStmt
    refine List.mem_cons_of_mem _ ?_
    exact List.mem_filterMap.mpr
      ⟨PyStmt.functionDef mrow mend mname margs mbody mret, hm, rfl⟩
  · intro frow fend fname fargs fbody fret hf
    refine ⟨{ item_type := "function", name := fname, line_number := frow,
              code := extract_code_block content frow (fend.getD frow),
              existing_docstring := extract_docstring fbody,
              parent := none,
              parameters := extract_parameters fargs,
              returns := extract_return_type fret,
              indentation := extract_indentation content frow },
            ?_, rfl, rfl, rfl, rfl⟩
    unfold parsePy
    simp only [List.mem_flatten, List.mem_map]
    refine ⟨itemsOfStmt content (PyStmt.functionDef frow fend fname fargs fbody fret),
            ⟨PyStmt.functionDef frow fend fname fargs fbody fret, hf, rfl⟩, ?_⟩
    unfold itemsOfStmt
    exact List.mem_cons_self _ _

/-- Witness for claim C9 at the concrete file `cW`: the method `m` of class
`Foo` is emitted with `parent = some "Foo"` at line 2, and the top-level
function `top` with `parent = none` at line 4. -/
theorem claim_C9_parent_assignment_witness :
    (∃ it ∈ (parsePy cW stmtsW).items,
        it.item_type = "method" ∧ it.name = "m" ∧
        it.parent = some "Foo" ∧ it.line_number = 2)
    ∧ (∃ it ∈ (parsePy cW stmtsW).items,
        it.item_type = "function" ∧ it.name = "top" ∧
        it.parent = none ∧ it.line_number = 4) := by
  constructor
  · exact (claim_C9_parent_assignment cW stmtsW).1 1 (some 3) "Foo"
      [PyStmt.functionDef 2 (some 3) "m" { args := [{ arg := "self" }] }
        [PyStmt.otherStmt 3 (some 3)] none]
      (by simp [stmtsW]) 2 (some 3) "m" { args := [{ arg := "self" }] }
      [PyStmt.otherStmt 3 (some 3)] none (by simp)
  · exact (claim_C9_parent_assignment cW stmtsW).2 4 (some 5) "top" {}
      [PyStmt.otherStmt 5 (some 5)] none (by simp [stmtsW])

/-! ## Line algebra for the rewriter (towards claim C2) -/

theorem byteLen_nil : byteLen [] = 0 := rfl

theorem byteLen_cons (c : Char) (cs : List Char) :
    byteLen (c :: cs) = c.utf8Size + byteLen cs := by
  simp [byteLen]

theorem byteLen_append (a b : List Char) :
    byteLen (a ++ b) = byteLen a + byteLen b := by
  simp [byteLen]

theorem splitAtByte_byteLen (xs ys : List Char) :
    splitAtByte (xs ++ ys) (byteLen xs) = (xs, ys) := by
  induction xs with
  | nil =>
    cases ys with
    | nil => rfl
    | cons c cs => simp [splitAtByte, byteLen]
  | cons c cs ih =>
    have hpos : byteLen (c :: cs) ≠ 0 := by
      have := Char.utf8Size_pos c
      rw [byteLen_cons]
      omega
    have harg : byteLen (c :: cs) - c.utf8Size = byteLen cs := by
      rw [byteLen_cons]
      omega
    have ih' : splitAtByte (cs.append ys) (byteLen cs) = (cs, ys) := ih
    simp only [List.cons_append, splitAtByte, if_neg hpos, harg, ih']

theorem splitNL_ne_nil (s : List Char) : splitNL s ≠ [] := by
  induction s with
  | nil => simp [splitNL]
  | cons c cs ih =>
    simp only [splitNL]
    cases h : splitNL cs with
    | nil => simp
    | cons p ps =>
      by_cases hc : c = '\n' <;> simp [hc]

theorem splitNL_append (xs ys : List Char) :
    splitNL (xs ++ '\n' :: ys) = splitNL xs ++ splitNL ys := by
  induction xs with
  | nil =>
    simp only [List.nil_append, splitNL]
    cases h : splitNL ys with
    | nil => exact absurd h (splitNL_ne_nil ys)
    | cons p ps => simp
  | cons c cs ih =>
    rw [List.cons_append]
    simp only [splitNL, ih]
    cases h : splitNL cs with
    | nil => exact absurd h (splitNL_ne_nil cs)
    | cons p ps =>
      by_cases hc : c = '\n' <;> simp [hc]

theorem splitNL_no_newline {s : List Char} (h : ∀ c ∈ s, c ≠ '\n') :
    splitNL s = [s] := by
  induction s with
  | nil => rfl
  | cons c cs ih =>
    have hc : c ≠ '\n' := h c (by simp)
    have ih' := ih (fun x hx => h x (by simp [hx]))
    simp [splitNL, ih', hc]

theorem mem_splitNL_no_newline {s p : List Char} (hp : p ∈ splitNL s) :
    ∀ c ∈ p, c ≠ '\n' := by
  induction s generalizing p with
  | nil =>
    simp only [splitNL, List.mem_singleton] at hp
    subst hp
    simp
  | cons a as ih =>
    cases h : splitNL as with
    | nil => exact absurd h (splitNL_ne_nil as)
    | cons q qs =>
      have heq : splitNL (a :: as)
          = if a = '\n' then [] :: q :: qs else (a :: q) :: qs := by
        simp only [splitNL, h]
      rw [heq] at hp
      by_cases ha : a = '\n'
      · rw [if_pos ha] at hp
        rcases List.mem_cons.mp hp with rfl | hp'
        · simp
        · exact ih (h ▸ hp')
      · rw [if_neg ha] at hp
        rcases List.mem_cons.mp hp with rfl | hp'
        · intro x hx
          rcases List.mem_cons.mp hx with rfl | hx'
          · exact ha
          · exact ih (h ▸ List.mem_cons_self q qs) x hx'
        · exact ih (h ▸ List.mem_cons_of_mem q hp')

theorem mem_of_mem_splitNL {s p : List Char} (hp : p ∈ splitNL s) :
    ∀ c ∈ p, c ∈ s := by
  induction s generalizing p with
  | nil =>
    simp only [splitNL, List.mem_singleton] at hp
    subst hp
    simp
  | cons a as ih =>
    cases h : splitNL as with
    | nil => exact absurd h (splitNL_ne_nil as)
    | cons q qs =>
      have heq : splitNL (a :: as)
          = if a = '\n' then [] :: q :: qs else (a :: q) :: qs := by
        simp only [splitNL, h]
      rw [heq] at hp
      by_cases ha : a = '\n'
      · rw [if_pos ha] at hp
        rcases List.mem_cons.mp hp with rfl | hp'
        · simp
        · exact fun c hc => List.mem_cons_of_mem a (ih (h ▸ hp') c hc)
      · rw [if_neg ha] at hp
        rcases List.mem_cons.mp hp with rfl | hp'
        · intro x hx
          rcases List.mem_cons.mp hx with rfl | hx'
          · exact List.mem_cons_self x as
          · exact List.mem_cons_of_mem a (ih (h ▸ List.mem_cons_self q qs) x hx')
        · exact fun c hc =>
            List.mem_cons_of_mem a (ih (h ▸ List.mem_cons_of_mem q hp') c hc)

theorem joinNL_append : ∀ (A : List (List Char)), A ≠ [] →
    ∀ (B : List (List Char)), B ≠ [] →
    joinNL (A ++ B) = joinNL A ++ '\n' :: joinNL B
  | [], hA, _, _ => absurd rfl hA
  | [p], _, B, hB => by
    cases B with
    | nil => exact absurd rfl hB
    | cons q B2 => rfl
  | p :: p2 :: A2, _, B, hB => by
    have ih := joinNL_append (p2 :: A2) (by simp) B hB
    show p ++ '\n' :: joinNL ((p2 :: A2) ++ B)
        = (p ++ '\n' :: joinNL (p2 :: A2)) ++ '\n' :: joinNL B
    rw [ih]
    simp [List.append_assoc]

theorem joinNL_splitNL (s : List Char) : joinNL (splitNL s) = s := by
  induction s with
  | nil => rfl
  | cons c cs ih =>
    cases h : splitNL cs with
    | nil => exact absurd h (splitNL_ne_nil cs)
    | cons p ps =>
      have heq : splitNL (c :: cs)
          = if c = '\n' then [] :: p :: ps else (c :: p) :: ps := by
        simp only [splitNL, h]
      rw [h] at ih
      rw [heq]
      by_cases hc : c = '\n'
      · subst hc
        rw [if_pos rfl]
        show [] ++ '\n' :: joinNL (p :: ps) = '\n' :: cs
        rw [List.nil_append, ih]
      · rw [if_neg hc]
        cases ps with
        | nil =>
          show c :: p = c :: cs
          have : joinNL [p] = p := rfl
          rw [this] at ih
          rw [ih]
        | cons p2 ps2 =>
          show (c :: p) ++ '\n' :: joinNL (p2 :: ps2) = c :: cs
          have : p ++ '\n' :: joinNL (p2 :: ps2) = cs := ih
          rw [List.cons_append, this]

theorem splitNL_joinNL : ∀ (ps : List (List Char)), ps ≠ [] →
    (∀ p ∈ ps, ∀ c ∈ p, c ≠ '\n') → splitNL (joinNL ps) = ps
  | [], h, _ => absurd rfl h
  | [p], _, hp => by
    show splitNL p = [p]
    exact splitNL_no_newline (hp p (by simp))
  | p :: p2 :: ps2, _, hp => by
    have ih := splitNL_joinNL (p2 :: ps2) (by simp)
      (fun q hq => hp q (List.mem_cons_of_mem p hq))
    show splitNL (p ++ '\n' :: joinNL (p2 :: ps2)) = p :: p2 :: ps2
    rw [splitNL_append, ih, splitNL_no_newline (hp p (by simp))]
    rfl

theorem rustLinesData_eq (s : List Char) :
    rustLinesData s = (splitNL s).dropLast.map stripCR ++
      (if (splitNL s).getLastD [] = [] then [] else [(splitNL s).getLastD []]) := rfl

theorem stripCR_id {l : List Char} (h : ∀ c ∈ l, c ≠ '\r') : stripCR l = l := by
  unfold stripCR
  cases hne : l.getLast? with
  | none => simp [hne]
  | some c =>
    have hlne : l ≠ [] := fun hl => by simp [hl] at hne
    have hc : c ∈ l := by
      rw [List.getLast?_eq_getLast l hlne] at hne
      injection hne with hne
      exact hne ▸ List.getLast_mem hlne
    rw [if_neg]
    intro heq
    exact h c hc (Option.some.inj heq)

theorem map_stripCR_id {Q : List (List Char)}
    (hcr : ∀ p ∈ Q, ∀ c ∈ p, c ≠ '\r') :
    Q.map stripCR = Q :=
  (List.map_congr_left (fun p hp => stripCR_id (hcr p hp))).trans
    (List.map_id _)

theorem getLastD_mem_of_ne_nil {Q : List (List Char)} (hQ : Q ≠ []) :
    Q.getLastD [] ∈ Q := by
  rw [List.getLastD_eq_getLast?, List.getLast?_eq_getLast _ hQ]
  exact List.getLast_mem hQ

theorem mem_rustLinesData_subset {s p : List Char} (hp : p ∈ rustLinesData s) :
    ∀ c ∈ p, c ∈ s := by
  unfold rustLinesData at hp
  rcases List.mem_append.mp hp with hp' | hp'
  · rcases List.mem_map.mp hp' with ⟨q, hq, rfl⟩
    intro c hc
    have hcq : c ∈ q := by
      unfold stripCR at hc
      split at hc
      · exact List.mem_of_mem_dropLast hc
      · exact hc
    exact mem_of_mem_splitNL (List.mem_of_mem_dropLast hq) c hcq
  · split at hp'
    · simp at hp'
    · rw [List.mem_singleton] at hp'
      subst hp'
      exact mem_of_mem_splitNL (getLastD_mem_of_ne_nil (splitNL_ne_nil s))

theorem rustLinesData_no_newline {s p : List Char} (hp : p ∈ rustLinesData s) :
    ∀ c ∈ p, c ≠ '\n' := by
  unfold rustLinesData at hp
  rcases List.mem_append.mp hp with hp' | hp'
  · rcases List.mem_map.mp hp' with ⟨q, hq, rfl⟩
    intro c hc
    have hcq : c ∈ q := by
      unfold stripCR at hc
      split at hc
      · exact List.mem_of_mem_dropLast hc
      · exact hc
    exact mem_splitNL_no_newline (List.mem_of_mem_dropLast hq) c hcq
  · split at hp'
    · simp at hp'
    · rw [List.mem_singleton] at hp'
      subst hp'
      exact mem_splitNL_no_newline (getLastD_mem_of_ne_nil (splitNL_ne_nil s))

theorem rustLinesData_ne_nil {s : List Char} (hs : s ≠ []) :
    rustLinesData s ≠ [] := by
  intro h
  unfold rustLinesData at h
  rcases List.append_eq_nil.mp h with ⟨h1, h2⟩
  have hd : (splitNL s).dropLast = [] := List.map_eq_nil_iff.mp h1
  have hne := splitNL_ne_nil s
  have hsing : splitNL s = [(splitNL s).getLastD []] := by
    cases hsp : splitNL s with
    | nil => exact absurd hsp hne
    | cons a as =>
      rw [hsp] at hd
      cases as with
      | nil => rfl
      | cons b bs => simp at hd
  have hx : (splitNL s).getLastD [] = [] := by
    by_contra hx
    rw [if_neg hx] at h2
    simp at h2
  rw [hx] at hsing
  have hs' : s = [] := by
    have hj := joinNL_splitNL s
    rw [hsing] at hj
    simpa using hj.symm
  exact hs hs'

theorem rustLinesData_joinNL (Q : List (List Char)) (hQ : Q ≠ [])
    (hnl : ∀ p ∈ Q, ∀ c ∈ p, c ≠ '\n') (hcr : ∀ p ∈ Q, ∀ c ∈ p, c ≠ '\r')
    (hlast : Q.getLastD [] ≠ []) :
    rustLinesData (joinNL Q) = Q := by
  rw [rustLinesData_eq]
  rw [splitNL_joinNL Q hQ hnl, if_neg hlast,
    map_stripCR_id (fun p hp => hcr p (List.mem_of_mem_dropLast hp)),
    List.getLastD_eq_getLast?, List.getLast?_eq_getLast _ hQ]
  simpa using List.dropLast_append_getLast hQ

theorem rustLinesData_joinNL_newline (Q : List (List Char)) (hQ : Q ≠ [])
    (hnl : ∀ p ∈ Q, ∀ c ∈ p, c ≠ '\n') (hcr : ∀ p ∈ Q, ∀ c ∈ p, c ≠ '\r') :
    rustLinesData (joinNL Q ++ '\n' :: []) = Q := by
  have hjoin : joinNL Q ++ '\n' :: [] = joinNL (Q ++ [[]]) := by
    rw [joinNL_append Q hQ [[]] (by simp)]
    rfl
  rw [hjoin, rustLinesData_eq]
  have hpieces : ∀ p ∈ Q ++ [[]], ∀ c ∈ p, c ≠ '\n' := by
    intro p hp
    rcases List.mem_append.mp hp with hp' | hp'
    · exact hnl p hp'
    · rw [List.mem_singleton] at hp'
      subst hp'
      simp
  rw [splitNL_joinNL (Q ++ [[]]) (by simp) hpieces,
    List.getLastD_eq_getLast?, List.getLast?_append_of_ne_nil Q (by simp)]
  simp only [List.getLast?_singleton, Option.getD_some, if_pos]
  rw [List.dropLast_concat, List.append_nil]
  exact map_stripCR_id hcr

theorem getLastD_append_of_ne_nil {X Y : List (List Char)} (hY : Y ≠ []) :
    (X ++ Y).getLastD [] = Y.getLastD [] := by
  rw [List.getLastD_eq_getLast?, List.getLastD_eq_getLast?,
    List.getLast?_append_of_ne_nil X hY]

theorem getLastD_drop {L : List (List Char)} {n : Nat} (h : L.drop n ≠ []) :
    (L.drop n).getLastD [] = L.getLastD [] := by
  conv_rhs => rw [← List.take_append_drop n L]
  rw [getLastD_append_of_ne_nil h]

theorem strData_ne_nil {s : String} (h : s ≠ "") : s.data ≠ [] := by
  intro hd
  apply h
  cases s with
  | mk data =>
    simp only [String.data] at hd
    rw [hd]

theorem content_decomp {s : List Char} (hcr : ∀ c ∈ s, c ≠ '\r')
    (hs : rustLinesData s ≠ []) :
    (s = joinNL (rustLinesData s) ∧ (rustLinesData s).getLastD [] ≠ [])
    ∨ s = joinNL (rustLinesData s) ++ '\n' :: [] := by
  have hj := joinNL_splitNL s
  have hne := splitNL_ne_nil s
  have hmap : (splitNL s).dropLast.map stripCR = (splitNL s).dropLast :=
    map_stripCR_id (fun p hp c hc =>
      hcr c (mem_of_mem_splitNL (List.mem_of_mem_dropLast hp) c hc))
  by_cases hlast : (splitNL s).getLastD [] = []
  · right
    have hL : rustLinesData s = (splitNL s).dropLast := by
      rw [rustLinesData_eq, if_pos hlast, List.append_nil, hmap]
    have hP : splitNL s = rustLinesData s ++ [[]] := by
      rw [hL, ← hlast, List.getLastD_eq_getLast?, List.getLast?_eq_getLast _ hne]
      exact (List.dropLast_append_getLast hne).symm
    have hLne : rustLinesData s ≠ [] := hs
    calc s = joinNL (splitNL s) := hj.symm
      _ = joinNL (rustLinesData s ++ [[]]) := by rw [← hP]
      _ = joinNL (rustLinesData s) ++ '\n' :: joinNL [[]] :=
          joinNL_append _ hLne _ (by simp)
      _ = joinNL (rustLinesData s) ++ '\n' :: [] := rfl
  · left
    have hL : rustLinesData s = splitNL s := by
      rw [rustLinesData_eq, if_neg hlast, hmap, List.getLastD_eq_getLast?,
        List.getLast?_eq_getLast _ hne]
      simpa using List.dropLast_append_getLast hne
    rw [hL]
    exact ⟨hj.symm, hlast⟩

theorem joinNL_take_succ (L : List (List Char)) (li : Nat) (hli : li < L.length) :
    joinNL (L.take (li + 1)) =
      if 0 < li then joinNL (L.take li) ++ '\n' :: L.getD li [] else L.getD li [] := by
  have htake : L.take (li + 1) = L.take li ++ [L.getD li []] := by
    rw [List.take_succ, List.getElem?_eq_getElem hli,
      List.getD_eq_getElem?_getD, List.getElem?_eq_getElem hli]
    rfl
  by_cases h : 0 < li
  · rw [if_pos h, htake,
      joinNL_append (L.take li) ?_ [L.getD li []] (by simp)]
    · rfl
    · rw [Ne, List.take_eq_nil_iff]
      rintro (h' | h')
      · omega
      · rw [h'] at hli
        simp at hli
  · rw [if_neg h]
    have hli0 : li = 0 := by omega
    subst hli0
    rw [htake]
    rfl

theorem split_index_eq (L : List (List Char)) (li : Nat) (hli : li < L.length) :
    (if 0 < li then byteLen (joinNL (L.take li)) + byteLen (L.getD li []) + 1
     else byteLen (L.getD li [])) = byteLen (joinNL (L.take (li + 1))) := by
  rw [joinNL_take_succ L li hli]
  by_cases h : 0 < li
  · rw [if_pos h, if_pos h, byteLen_append, byteLen_cons]
    have h1 : ('\n' : Char).utf8Size = 1 := by decide
    omega
  · rw [if_neg h, if_neg h]

theorem insert_result_lines (A Dl docLines : List (List Char)) (tail : List Char)
    (hAne : A ≠ []) (hdocne : docLines ≠ [])
    (hnl : ∀ p ∈ A ++ docLines ++ Dl, ∀ c ∈ p, c ≠ '\n')
    (hcr : ∀ p ∈ A ++ docLines ++ Dl, ∀ c ∈ p, c ≠ '\r')
    (htail : tail = [] ∨ tail = '\n' :: [])
    (hlast : tail = [] → (A ++ docLines ++ Dl).getLastD [] ≠ []) :
    rustLinesData (joinNL A ++ '\n' ::
        (joinNL docLines ++ ((if Dl = [] then [] else '\n' :: joinNL Dl) ++ tail)))
      = A ++ docLines ++ Dl := by
  have hQne : A ++ docLines ++ Dl ≠ [] := by simp [hAne]
  have hout : joinNL A ++ '\n' ::
        (joinNL docLines ++ ((if Dl = [] then [] else '\n' :: joinNL Dl) ++ tail))
      = joinNL (A ++ docLines ++ Dl) ++ tail := by
    by_cases hD : Dl = []
    · subst hD
      rw [if_pos rfl, List.nil_append, List.append_nil,
        joinNL_append A hAne docLines hdocne]
      simp [List.append_assoc]
    · rw [if_neg hD, List.append_assoc A docLines Dl,
        joinNL_append A hAne (docLines ++ Dl) (by simp [hdocne]),
        joinNL_append docLines hdocne Dl hD]
      simp [List.append_assoc]
  rw [hout]
  rcases htail with rfl | rfl
  · rw [List.append_nil]
    exact rustLinesData_joinNL _ hQne hnl hcr (hlast rfl)
  · exact rustLinesData_joinNL_newline _ hQne hnl hcr

theorem applyOne_insert (content : List Char) (item : CodeItem) (u : UpdatedDocstring)
    (hCR : ∀ c ∈ content, c ≠ '\r')
    (hli : item.line_number - 1 < (rustLinesData content).length)
    (hnodoc : hasDocAt (rustLinesData content) (item.line_number - 1) = false)
    (hindNL : ∀ c ∈ item.indentation.data, c ≠ '\n')
    (hindCR : ∀ c ∈ item.indentation.data, c ≠ '\r')
    (hndCR : ∀ c ∈ u.new_docstring.data, c ≠ '\r')
    (hnd : u.new_docstring ≠ "") :
    ∃ out : List Char,
      applyOne content item u = Except.ok out ∧
      rustLinesData out =
        (rustLinesData content).take (item.line_number - 1 + 1)
          ++ (rustLinesData u.new_docstring.data).map
               (fun l => item.indentation.data ++ "    ".data ++ l)
          ++ (rustLinesData content).drop (item.line_number - 1 + 1) := by
  set L := rustLinesData content with hLdef
  set docLines := (rustLinesData u.new_docstring.data).map
    (fun l => item.indentation.data ++ "    ".data ++ l) with hdocdef
  have hLne : L ≠ [] := by
    intro h
    rw [h] at hli
    simp at hli
  have hnotle : ¬ L.length ≤ item.line_number - 1 := by omega
  -- reduce `applyOne` to its insertion branch
  have happ : applyOne content item u
      = Except.ok ((splitAtByte content
            (byteLen (joinNL (L.take (item.line_number - 1 + 1))))).1
          ++ '\n' :: (indentedDocstring item.indentation.data u.new_docstring
            ++ (splitAtByte content
              (byteLen (joinNL (L.take (item.line_number - 1 + 1))))).2)) := by
    simp only [applyOne]
    rw [← hLdef, if_neg hnotle, hnodoc]
    simp only [Bool.false_eq_true, if_false]
    rw [split_index_eq L (item.line_number - 1) hli]
  -- the documentation block lines
  have hdata : u.new_docstring.data ≠ [] := strData_ne_nil hnd
  have hdocne : docLines ≠ [] := by
    rw [hdocdef, Ne, List.map_eq_nil_iff]
    exact rustLinesData_ne_nil hdata
  have hdocnl : ∀ p ∈ docLines, ∀ c ∈ p, c ≠ '\n' := by
    rw [hdocdef]
    intro p hp c hc
    rcases List.mem_map.mp hp with ⟨l, hl, rfl⟩
    rcases List.mem_append.mp hc with hc' | hc'
    · rcases List.mem_append.mp hc' with h1 | h1
      · exact hindNL c h1
      · intro he
        subst he
        exact absurd h1 (by decide)
    · exact rustLinesData_no_newline hl c hc'
  have hdoccr : ∀ p ∈ docLines, ∀ c ∈ p, c ≠ '\r' := by
    rw [hdocdef]
    intro p hp c hc
    rcases List.mem_map.mp hp with ⟨l, hl, rfl⟩
    rcases List.mem_append.mp hc with hc' | hc'
    · rcases List.mem_append.mp hc' with h1 | h1
      · exact hindCR c h1
      · intro he
        subst he
        exact absurd h1 (by decide)
    · exact hndCR c (mem_rustLinesData_subset hl c hc')
  have hdocpne : ∀ p ∈ docLines, p ≠ [] := by
    rw [hdocdef]
    intro p hp h
    rcases List.mem_map.mp hp with ⟨l, hl, rfl⟩
    rcases List.append_eq_nil.mp h with ⟨h1, _⟩
    rcases List.append_eq_nil.mp h1 with ⟨_, h2⟩
    exact absurd h2 (by decide)
  have hdoclast : docLines.getLastD [] ≠ [] :=
    hdocpne _ (getLastD_mem_of_ne_nil hdocne)
  -- decompose the content into its lines plus an optional trailing newline
  obtain ⟨tail, htail, hcontent, hlastQ⟩ : ∃ tail, (tail = [] ∨ tail = '\n' :: []) ∧
      content = joinNL L ++ tail ∧ (tail = [] → L.getLastD [] ≠ []) := by
    rcases content_decomp hCR hLne with ⟨h1, h2⟩ | h1
    · exact ⟨[], Or.inl rfl, by simpa using h1, fun _ => h2⟩
    · exact ⟨'\n' :: [], Or.inr rfl, h1, fun h => absurd h (by simp)⟩
  have hAD : L.take (item.line_number - 1 + 1) ++ L.drop (item.line_number - 1 + 1)
      = L := List.take_append_drop _ _
  have hAne : L.take (item.line_number - 1 + 1) ≠ [] := by
    rw [Ne, List.take_eq_nil_iff]
    rintro (h | h)
    · omega
    · exact hLne h
  -- the content as bytes before the insertion point plus the remainder
  have hjoinsplit : content
      = joinNL (L.take (item.line_number - 1 + 1))
        ++ ((if L.drop (item.line_number - 1 + 1) = [] then []
            else '\n' :: joinNL (L.drop (item.line_number - 1 + 1))) ++ tail) := by
    rw [hcontent]
    by_cases hD : L.drop (item.line_number - 1 + 1) = []
    · rw [if_pos hD, List.nil_append]
      have hAeq : L.take (item.line_number - 1 + 1) = L := by
        conv_rhs => rw [← hAD]
        rw [hD, List.append_nil]
      rw [hAeq]
    · rw [if_neg hD]
      conv_lhs => rw [← hAD]
      rw [joinNL_append _ hAne _ hD]
      simp [List.append_assoc]
  have hsplitAt : splitAtByte content
        (byteLen (joinNL (L.take (item.line_number - 1 + 1))))
      = (joinNL (L.take (item.line_number - 1 + 1)),
         (if L.drop (item.line_number - 1 + 1) = [] then []
          else '\n' :: joinNL (L.drop (item.line_number - 1 + 1))) ++ tail) := by
    conv_lhs => rw [hjoinsplit]
    exact splitAtByte_byteLen _ _
  refine ⟨joinNL (L.take (item.line_number - 1 + 1))
      ++ '\n' :: (joinNL docLines
        ++ ((if L.drop (item.line_number - 1 + 1) = [] then []
            else '\n' :: joinNL (L.drop (item.line_number - 1 + 1))) ++ tail)),
    ?_, ?_⟩
  · rw [happ, hsplitAt]
    rfl
  · -- apply the line characterization of the rewritten text
    have hnlQ : ∀ p ∈ L.take (item.line_number - 1 + 1) ++ docLines
        ++ L.drop (item.line_number - 1 + 1), ∀ c ∈ p, c ≠ '\n' := by
      intro p hp
      rcases List.mem_append.mp hp with hp' | hp'
      · rcases List.mem_append.mp hp' with h1 | h1
        · exact rustLinesData_no_newline (List.take_subset _ _ h1)
        · exact hdocnl p h1
      · exact rustLinesData_no_newline (List.drop_subset _ _ hp')
    have hcrQ : ∀ p ∈ L.take (item.line_number - 1 + 1) ++ docLines
        ++ L.drop (item.line_number - 1 + 1), ∀ c ∈ p, c ≠ '\r' := by
      intro p hp
      rcases List.mem_append.mp hp with hp' | hp'
      · rcases List.mem_append.mp hp' with h1 | h1
        · exact fun c hc =>
            hCR c (mem_rustLinesData_subset (List.take_subset _ _ h1) c hc)
        · exact hdoccr p h1
      · exact fun c hc =>
          hCR c (mem_rustLinesData_subset (List.drop_subset _ _ hp') c hc)
    have hlast' : tail = [] →
        (L.take (item.line_number - 1 + 1) ++ docLines
          ++ L.drop (item.line_number - 1 + 1)).getLastD [] ≠ [] := by
      intro ht
      by_cases hD : L.drop (item.line_number - 1 + 1) = []
      · rw [hD, List.append_nil, getLastD_append_of_ne_nil hdocne]
        exact hdoclast
      · rw [getLastD_append_of_ne_nil hD, getLastD_drop hD]
        exact hlastQ ht
    exact insert_result_lines _ _ _ tail hAne hdocne hnlQ hcrQ htail hlast'

/-! ## Claim C2 (insertion position) -/

/-- Claim C2, counterexample: for the undocumented function of `c1`,
`update_content` succeeds, but the new documentation block does not occupy
the lines directly above the definition line — the definition line stays at
line 1 of the output and the block is inserted below it. -/
theorem claim_C2_counterexample :
    update_content c1 items1 [updC2] = UResult.ok "def f():\n    Doc.\n    pass" ∧
    hasDocAt (rustLinesData c1.data) 0 = false ∧
    ¬ ∃ j ∈ List.range (rustLines "def f():\n    Doc.\n    pass").length,
        1 ≤ j ∧
        (rustLines "def f():\n    Doc.\n    pass").getD j "" = "def f():" ∧
        (rustLines "def f():\n    Doc.\n    pass").getD (j - 1) "" = "    Doc." :=
  ⟨by decide, by decide, by decide⟩

/-- Claim C2 as amended: for an update whose target item has no existing
documentation block (the line after the definition line, trimmed, does not
start with a docstring delimiter), `update_content` inserts the new block
immediately AFTER the item's definition line (the Python docstring
convention): for carriage-return-free content, a non-empty docstring text
and a newline-free captured indentation, the output's lines are exactly the
original lines with the indented block (item indentation plus four spaces
per line) inserted directly below the definition line; the definition line
keeps its position. -/
theorem claim_C2_amended_insert_after (content : String) (items : List CodeItem)
    (u : UpdatedDocstring)
    (hidx : u.item_index < items.length)
    (_hln : 1 ≤ (items.getD u.item_index default).line_number)
    (hCR : ∀ c ∈ content.data, c ≠ '\r')
    (hli : (items.getD u.item_index default).line_number - 1
      < (rustLinesData content.data).length)
    (hnodoc : hasDocAt (rustLinesData content.data)
      ((items.getD u.item_index default).line_number - 1) = false)
    (hindNL : ∀ c ∈ (items.getD u.item_index default).indentation.data, c ≠ '\n')
    (hindCR : ∀ c ∈ (items.getD u.item_index default).indentation.data, c ≠ '\r')
    (hndCR : ∀ c ∈ u.new_docstring.data, c ≠ '\r')
    (hnd : u.new_docstring ≠ "") :
    ∃ out : List Char,
      update_content content items [u] = UResult.ok ⟨out⟩ ∧
      rustLinesData out =
        (rustLinesData content.data).take
            ((items.getD u.item_index default).line_number - 1 + 1)
          ++ (rustLinesData u.new_docstring.data).map
               (fun l => (items.getD u.item_index default).indentation.data
                 ++ "    ".data ++ l)
          ++ (rustLinesData content.data).drop
              ((items.getD u.item_index default).line_number - 1 + 1) := by
  obtain ⟨out, h1, h2⟩ := applyOne_insert content.data
    (items.getD u.item_index default) u hCR hli hnodoc hindNL hindCR hndCR hnd
  refine ⟨out, ?_, h2⟩
  have hguard : ([u].any (fun v => items.length ≤ v.item_index)) = false := by
    simp only [List.any_cons, List.any_nil, Bool.or_false,
      decide_eq_false_iff_not, Nat.not_le]
    exact hidx
  unfold update_content
  rw [hguard]
  simp only [Bool.false_eq_true, if_false]
  have hsort : sortUpdatesDesc items [u] = [u] := rfl
  rw [hsort]
  simp only [applyAll, h1]

/-- Witness for the amended claim C2: inserting documentation for the
function `f` (line 3) of `c7` places the indented block directly below
line 3, leaving lines 1-3 in place. -/
theorem claim_C2_amended_insert_after_witness :
    ({ item_index := 1, new_docstring := "Adds numbers.",
       indentation := "" } : UpdatedDocstring).item_index < items7.length ∧
    hasDocAt (rustLinesData c7.data) 2 = false ∧
    ∃ out : List Char,
      update_content c7 items7
          [{ item_index := 1, new_docstring := "Adds numbers.", indentation := "" }]
        = UResult.ok ⟨out⟩ ∧
      rustLinesData out =
        (rustLinesData c7.data).take 3
          ++ (rustLinesData ("Adds numbers." : String).data).map
               (fun l => ("" : String).data ++ "    ".data ++ l)
          ++ (rustLinesData c7.data).drop 3 := by
  refine ⟨by decide, by decide, ?_⟩
  exact claim_C2_amended_insert_after c7 items7
    { item_index := 1, new_docstring := "Adds numbers.", indentation := "" }
    (by decide) (by decide) (by decide) (by decide) (by decide) (by decide)
    (by decide) (by decide) (by decide)
